import Mathlib

/-!
Verification development for the Public-Speaking-Assistant transcription
service.  The definitions below are shallow embeddings of the Python code in
`app/main.py` and `app/features/transcription/service.py`: real numbers of the
source are modelled by rationals, Python dictionaries by association lists,
and the external capabilities (librosa, whisperx, ffmpeg) by explicit
`Except`-valued inputs describing their outcome.
-/

namespace PSA

/-! ## Character classification and tokenisation

Embeds `re.findall of the pattern "\\b\\w+\\b|[^\\w\\s]" over the text` from
`TranscriptionService._create_simple_word_alignment`.  A `\w` character is an
alphanumeric character or an underscore; a maximal run of such characters is
one word token, every other non-whitespace character is an individual
punctuation token, and whitespace separates tokens. -/

def isWordChar (c : Char) : Bool :=
  c.isAlphanum || c = '_'

def isSpaceChar (c : Char) : Bool :=
  c.isWhitespace

/-- One step of `str.strip()` from the left. -/
def lstrip (cs : List Char) : List Char :=
  cs.dropWhile isSpaceChar

/-- Embedding of str.strip: drop whitespace from both ends. -/
def strip (cs : List Char) : List Char :=
  ((lstrip cs).reverse.dropWhile isSpaceChar).reverse

/-- Emit the word run accumulated (in reverse) so far, if any. -/
def flushTok (acc : List Char) : List (List Char) :=
  if acc = [] then [] else [acc.reverse]

/-- Scanner for `re.findall of the pattern "\\b\\w+\\b|[^\\w\\s]" over the text`: `acc` holds the
current maximal alphanumeric-or-underscore run in reverse; every other
non-space symbol is an individual punctuation token, and whitespace only
separates tokens. -/
def tokenizeAux : List Char → List Char → List (List Char)
  | [], acc => flushTok acc
  | c :: rest, acc =>
    if isWordChar c then tokenizeAux rest (c :: acc)
    else if isSpaceChar c then flushTok acc ++ tokenizeAux rest []
    else flushTok acc ++ [c] :: tokenizeAux rest []

/-- Embedding of `re.findall of the pattern "\\b\\w+\\b|[^\\w\\s]" over the text`: maximal
alphanumeric-or-underscore runs are word tokens, other non-space symbols are
individual punctuation tokens. -/
def tokenize (cs : List Char) : List (List Char) :=
  tokenizeAux cs []

/-! ## Synthetic word alignment

Embedding of `TranscriptionService._create_simple_word_alignment`.  Word
timings carry rational times; the Python `end` field is called `stop` (`end`
is a Lean keyword). -/

/-- A word timing with fields word, start, end. -/
structure Word where
  word : String
  start : ℚ
  stop : ℚ
deriving DecidableEq, Repr

/-- An ASR segment with fields start, end, text, words;
`words` is `none` when the dictionary has no words key. -/
structure Segment where
  start : ℚ
  stop : ℚ
  text : String
  words : Option (List Word) := none
deriving DecidableEq, Repr

/-- Nominal token duration: `0.1` seconds when the pattern "[^\\w\\s]" matches at the start of the token
matches (the token starts with a punctuation symbol), else `0.5`. -/
def nominalDuration (tok : List Char) : ℚ :=
  match tok with
  | c :: _ => if !isWordChar c && !isSpaceChar c then 1/10 else 1/2
  | [] => 1/2

/-- The layout loop: each token starts where the previous one ended, the
first token starting at `t`. -/
def layOut (t : ℚ) : List (List Char) → List ℚ → List Word
  | tok :: toks, d :: ds => ⟨String.mk tok, t, t + d⟩ :: layOut (t + d) toks ds
  | _, _ => []

/-- One segment of `_create_simple_word_alignment`: tokenize the stripped
text, scale the nominal durations to fill the segment, and lay the tokens out
consecutively.  A segment without tokens is skipped (left unchanged). -/
def simpleAlignSegment (s : Segment) : Segment :=
  let toks := tokenize (strip s.text.data)
  if toks = [] then s
  else
    let durs := toks.map nominalDuration
    let total := durs.sum
    let scaled :=
      if 0 < total then durs.map (fun d => d * ((s.stop - s.start) / total))
      else durs
    { s with words := some (layOut s.start toks scaled) }

/-- Embedding of `_create_simple_word_alignment` over the whole result. -/
def simpleAlign (segs : List Segment) : List Segment :=
  segs.map simpleAlignSegment

/-! ## Pause detection

Embedding of `TranscriptionService._detect_pauses`.  Decoding and RMS-energy
computation are external (librosa) calls: their outcome enters the model as an
`Except`-valued input carrying either the per-frame RMS energies and the
native sample rate, or the message of the raised exception. -/

/-- A pause interval with fields start, end, duration; the Python
`end` field is called `stop`. -/
structure Pause where
  start : ℚ
  stop : ℚ
  duration : ℚ
deriving DecidableEq, Repr

/-- The `pause_settings` dictionary of `TranscriptionService`. -/
structure PauseSettings where
  min_pause_duration : ℚ
  energy_threshold : ℚ
  frame_length : ℕ
  hop_length : ℕ
deriving DecidableEq, Repr

/-- What `librosa.load` plus `librosa.feature.rms` produce: the per-frame RMS
energies and the native sample rate. -/
structure AudioAnalysis where
  rms : List ℚ
  sr : ℕ
deriving DecidableEq, Repr

/-- Embedding of librosa frames_to_time over the frame indices:
frame `i` maps to time `i * hop_length / sr`. -/
def frameTimes (n : ℕ) (hop sr : ℕ) : List ℚ :=
  (List.range n).map (fun (i : ℕ) => ((i : ℚ) * hop) / sr)

/-- The grouping loop of `_detect_pauses`: scan `zip(times, is_pause)`
carrying the current `pause_start` (`none` = Python `None`); on a
silent-to-voiced transition emit the interval when its duration reaches
`min_pause_duration`.  Returns the emitted intervals and the final
`pause_start`. -/
def pauseScan (minDur : ℚ) : List (ℚ × Bool) → Option ℚ → List Pause × Option ℚ
  | [], st => ([], st)
  | (t, b) :: rest, none =>
    if b then pauseScan minDur rest (some t) else pauseScan minDur rest none
  | (t, b) :: rest, some s =>
    if b then pauseScan minDur rest (some s)
    else
      let out := pauseScan minDur rest none
      (if minDur ≤ t - s then ⟨s, t, t - s⟩ :: out.1 else out.1, out.2)

/-- The whole frame-level algorithm: run the scan and close a still-open
trailing pause at the last frame time (`times[-1]`), subject to the same
duration test. -/
def detectPausesFrames (minDur : ℚ) (frames : List (ℚ × Bool)) : List Pause :=
  let r := pauseScan minDur frames none
  match r.2, (frames.map Prod.fst).getLast? with
  | some s, some tl =>
    if minDur ≤ tl - s then r.1 ++ [⟨s, tl, tl - s⟩] else r.1
  | _, _ => r.1

/-- Embedding of `_detect_pauses`: on any decoding/analysis error return the empty list
(the exception is logged, not raised); otherwise threshold the RMS energies
and group contiguous silent frames. -/
def detect_pauses (ps : PauseSettings) (load : Except String AudioAnalysis) :
    List Pause :=
  match load with
  | .error _ => []
  | .ok a =>
    let times := frameTimes a.rms.length ps.hop_length a.sr
    let mask := a.rms.map (fun e => decide (e < ps.energy_threshold))
    detectPausesFrames ps.min_pause_duration (times.zip mask)

/-! ## Result formatting

Embedding of the entry order of the detailed output of `_format_transcription_result`: the pauses section is rendered first (in detection order), then — when
any segment carries word timings — one line per word in segment order,
otherwise one line per segment. -/

inductive TimelineEntry
  | pause (start stop duration : ℚ)
  | word (text : String) (start stop : ℚ)
  | seg (text : String) (start stop : ℚ)
deriving DecidableEq, Repr

def entryStart : TimelineEntry → ℚ
  | .pause s _ _ => s
  | .word _ s _ => s
  | .seg _ s _ => s

def TimelineEntry.isPause : TimelineEntry → Bool
  | .pause _ _ _ => true
  | _ => false

def TimelineEntry.isWord : TimelineEntry → Bool
  | .word _ _ _ => true
  | _ => false

/-- The timed entries of the detailed output of
`_format_transcription_result`, in the order the Python code renders them:
all pauses first, then all word lines (or segment lines when no word timings
exist). -/
def detailedEntries (segments : List Segment) (pauses : List Pause) :
    List TimelineEntry :=
  pauses.map (fun p => .pause p.start p.stop p.duration) ++
    (if segments.any (fun s => !(s.words.getD []).isEmpty) then
      segments.flatMap (fun s =>
        (s.words.getD []).map (fun w =>
          .word (String.mk (strip w.word.data)) w.start w.stop))
    else
      segments.map (fun s => .seg s.text s.start s.stop))

/-! ## Job tracker

Embedding of the `task_statuses` dictionary in `app/main.py` together with
its access paths (`process_transcription_task` initialisation and updates,
`get_task_status`).  A Python dictionary write `d[k] = v` is replace-or-append
on an association list; `d[k].update(patch)` is an in-place record change. -/

inductive JobStatus
  | processing
  | completed
  | failed
deriving DecidableEq, Repr

/-- One `task_statuses[task_id]` record (the fields the claims are about;
`logs` entries are level/message pairs). -/
structure Job where
  status : JobStatus
  progress : ℕ
  message : String
  logs : List (String × String) := []
  error : Option String := none
deriving DecidableEq, Repr

def JobTable := List (String × Job)

def setJob : JobTable → String → Job → JobTable
  | [], id, j => [(id, j)]
  | (k, v) :: rest, id, j =>
    if k = id then (k, j) :: rest else (k, v) :: setJob rest id j

def getJob : JobTable → String → Option Job
  | [], _ => none
  | (k, v) :: rest, id => if k = id then some v else getJob rest id

def updateJob : JobTable → String → (Job → Job) → JobTable
  | [], _, _ => []
  | (k, v) :: rest, id, f =>
    if k = id then (k, f v) :: rest else (k, v) :: updateJob rest id f

/-- The status endpoint of the main app: 404 when the id is absent, else the record. -/
def get_task_status (tbl : JobTable) (task_id : String) : Except ℕ Job :=
  match getJob tbl task_id with
  | none => .error 404
  | some j => .ok j

/-- The record `process_transcription_task` installs before doing anything. -/
def initialTranscriptionJob : Job :=
  { status := .processing, progress := 0,
    message := "Начинаем транскрипцию...", logs := [], error := none }

/-! ## Submission ids

Embedding of `sanitize_filename` and the task-id construction in
`process_file`. -/

/-- One character of the first sanitisation step: every character that is not
a word character, a dash or a dot is replaced by an underscore. -/
def sanitizeChar (c : Char) : Char :=
  if isWordChar c || c = '-' || c = '.' then c else '_'

/-- The second sanitisation step: collapse every underscore run into one
underscore. -/
def collapseUnderscores : List Char → List Char
  | [] => []
  | [c] => [c]
  | a :: b :: rest =>
    if a = '_' && b = '_' then collapseUnderscores (b :: rest)
    else a :: collapseUnderscores (b :: rest)

/-- The third sanitisation step: strip underscores from both ends. -/
def stripUnderscores (cs : List Char) : List Char :=
  ((cs.dropWhile (fun c => c = '_')).reverse.dropWhile (fun c => c = '_')).reverse

def sanitize_filename (s : String) : String :=
  String.mk (stripUnderscores (collapseUnderscores (s.data.map sanitizeChar)))

/-- The task id built in process_file from the second-resolution timestamp
and the sanitized filename:
a pure function of the second-resolution timestamp string and the sanitized
filename. -/
def makeTaskId (timestamp : String) (filename : String) : String :=
  "task_" ++ timestamp ++ "_" ++ sanitize_filename filename

/-! ## The transcription orchestrator

Embedding of `TranscriptionService.transcribe_file` composed with
`process_transcription_task` of `app/main.py`.  The outcomes of the external
calls (ffmpeg conversion, librosa analysis, `whisperx.load_audio`,
`model.transcribe`, `whisperx.align`) enter as an environment record; the
HTTP hop between the main app and the microservice is collapsed, so the
background task receives the service outcome directly. -/

structure PipelineEnv where
  /-- whether the lowercased file extension is one of .mp4, .avi, .mov, .mkv -/
  isVideo : Bool
  /-- the outcome of `convert_video_to_audio` -/
  convertOk : Bool
  /-- the outcome of `librosa.load` and `librosa.feature.rms` inside `_detect_pauses` -/
  audioLoad : Except String AudioAnalysis
  /-- the outcome of `whisperx.load_audio` -/
  whisperLoad : Except String Unit
  /-- the outcome of `self.model.transcribe` -/
  asr : Except String (List Segment)
  /-- whether `self.align_model is not None` -/
  alignAvailable : Bool
  /-- the outcome of `whisperx.align` -/
  alignResult : Except String (List Segment)

/-- The top-level `except` of `transcribe_file` re-raises every stage
exception as `RuntimeError(f"Ошибка транскрипции: {e}")`. -/
def wrapTranscriptionError (m : String) : String :=
  "Ошибка транскрипции: " ++ m

/-- Embedding of `transcribe_file`: returns the progress checkpoints reported via
`progress_callback`, in order, together with either the formatted result
(aligned segments and detected pauses) or the raised error message. -/
def transcribe_file (ps : PauseSettings) (env : PipelineEnv) :
    List ℕ × Except String (List Segment × List Pause) :=
  if env.isVideo && !env.convertOk then
    ([10], .error (wrapTranscriptionError "Не удалось конвертировать видео в аудио."))
  else
    let pauses := detect_pauses ps env.audioLoad
    match env.whisperLoad with
    | .error m => ([10, 35, 40], .error (wrapTranscriptionError m))
    | .ok _ =>
      match env.asr with
      | .error m => ([10, 35, 40, 50], .error (wrapTranscriptionError m))
      | .ok segs =>
        let aligned :=
          if env.alignAvailable then
            match env.alignResult with
            | .ok precise => precise
            | .error _ => simpleAlign segs
          else simpleAlign segs
        ([10, 35, 40, 50, 75, 90, 100], .ok (aligned, pauses))

/-- Embedding of `process_transcription_task` of `app/main.py`: install the initial
record, report progress 10, run the transcription, then either complete the
job (progress 100) or fail it, storing the error text and resetting progress
to 0. -/
def process_transcription_task (tbl : JobTable) (task_id : String)
    (ps : PauseSettings) (env : PipelineEnv) : JobTable :=
  let tbl1 := setJob tbl task_id initialTranscriptionJob
  let tbl2 := updateJob tbl1 task_id (fun j =>
    { j with progress := 10,
             message := "Отправляем файл в микросервис транскрипции..." })
  match (transcribe_file ps env).2 with
  | .ok _ =>
    updateJob tbl2 task_id (fun j =>
      { j with status := .completed, progress := 100,
               message := "Транскрипция завершена!" })
  | .error m =>
    updateJob tbl2 task_id (fun j =>
      { j with status := .failed, progress := 0,
               message := "Ошибка при обработке", error := some m })

/-- The progress values `process_transcription_task` itself writes into the
record after creating it, in order. -/
def mainProgressUpdates (ps : PauseSettings) (env : PipelineEnv) : List ℕ :=
  match (transcribe_file ps env).2 with
  | .ok _ => [10, 100]
  | .error _ => [10, 0]

/-- The fixed checkpoint contract of §4.4 of the spec. -/
def progressCheckpoints : List ℕ := [10, 35, 40, 50, 75, 90, 100]

/-! ## Concrete fixtures used by witnesses and counterexamples -/

/-- The default `pause_settings` of `TranscriptionService.__init__`
(0.2 s, 0.005, 1024, 256). -/
def psDefaults : PauseSettings :=
  { min_pause_duration := 1/5, energy_threshold := 1/200,
    frame_length := 1024, hop_length := 256 }

def envAllOk : PipelineEnv :=
  { isVideo := false, convertOk := true,
    audioLoad := .ok { rms := [], sr := 16000 },
    whisperLoad := .ok (), asr := .ok [],
    alignAvailable := true, alignResult := .ok [] }

def envAsrFails : PipelineEnv := { envAllOk with asr := .error "boom" }

def segHi : Segment := { start := 0, stop := 1, text := "hi!" }

def segNoText : Segment := { start := 0, stop := 1, text := "" }

def envAlignFails : PipelineEnv :=
  { envAllOk with asr := .ok [segHi], alignResult := .error "align broke" }

def envAlignFailsEmptySeg : PipelineEnv :=
  { envAllOk with asr := .ok [segNoText], alignResult := .error "align broke" }

def audioFix : AudioAnalysis := { rms := [0, 0, 0, 1], sr := 16000 }

def segWithWord : Segment :=
  { start := 0, stop := 2, text := "hi",
    words := some [{ word := "hi", start := 1, stop := 2 }] }

def pauseLate : Pause := { start := 5, stop := 6, duration := 1 }

/-- A word character is never whitespace (case analysis on the four
whitespace characters). -/
lemma isWordChar_not_space {c : Char} (h : isWordChar c = true) :
    isSpaceChar c = false := by
  by_contra hs
  have hw : c.isWhitespace = true := by
    simpa [isSpaceChar] using hs
  have : ((c = ' ' ∨ c = '\t') ∨ c = '\x0d') ∨ c = '\n' := by
    simpa [Char.isWhitespace] using hw
  rcases this with ((h1 | h1) | h1) | h1 <;> subst h1 <;>
    simp [isWordChar] at h

/-- Dropping a leading whitespace run never changes the non-whitespace
characters. -/
lemma filter_dropWhile_space (l : List Char) :
    (l.dropWhile isSpaceChar).filter (fun c => !isSpaceChar c) =
      l.filter (fun c => !isSpaceChar c) := by
  induction l with
  | nil => simp
  | cons c rest ih =>
    by_cases h : isSpaceChar c = true
    · simp [List.dropWhile, List.filter, h, ih]
    · simp only [Bool.not_eq_true] at h
      simp [List.dropWhile, List.filter, h]

/-- Stripping preserves the non-whitespace characters. -/
lemma filter_strip (cs : List Char) :
    (strip cs).filter (fun c => !isSpaceChar c) =
      cs.filter (fun c => !isSpaceChar c) := by
  unfold strip lstrip
  rw [List.filter_reverse, filter_dropWhile_space, List.filter_reverse,
    List.reverse_reverse, filter_dropWhile_space]

lemma flushTok_flatten (acc : List Char) :
    (flushTok acc).flatten = acc.reverse := by
  by_cases h : acc = [] <;> simp [flushTok, h]

lemma tokenizeAux_flatten : ∀ (cs acc : List Char),
    (tokenizeAux cs acc).flatten =
      acc.reverse ++ cs.filter (fun c => !isSpaceChar c) := by
  intro cs
  induction cs with
  | nil =>
    intro acc
    simp [tokenizeAux, flushTok_flatten]
  | cons c rest ih =>
    intro acc
    by_cases hw : isWordChar c = true
    · have hs := isWordChar_not_space hw
      rw [List.filter_cons_of_pos (by simp [hs])]
      simp [tokenizeAux, hw, ih (c :: acc)]
    · by_cases hsp : isSpaceChar c = true
      · rw [List.filter_cons_of_neg (by simp [hsp])]
        simp [tokenizeAux, hw, hsp, ih [], flushTok_flatten]
      · rw [List.filter_cons_of_pos (by simp [hsp])]
        simp [tokenizeAux, hw, hsp, ih [], flushTok_flatten]

/-- The tokens of `re.findall of the pattern "\\b\\w+\\b|[^\\w\\s]" over the text`, concatenated,
are exactly the non-whitespace characters of the text in order. -/
lemma tokenize_flatten (cs : List Char) :
    (tokenize cs).flatten = cs.filter (fun c => !isSpaceChar c) := by
  simpa using tokenizeAux_flatten cs []

lemma layOut_map_word : ∀ (toks : List (List Char)) (ds : List ℚ) (t : ℚ),
    toks.length = ds.length →
    (layOut t toks ds).map Word.word = toks.map (fun tk => String.mk tk)
  | [], [], _, _ => rfl
  | tok :: toks, d :: ds, t, h => by
    simp only [layOut, List.map_cons, List.cons.injEq, true_and]
    exact layOut_map_word toks ds (t + d) (by simpa using h)
  | [], _ :: _, _, h => by simp at h
  | _ :: _, [], _, h => by simp at h

lemma layOut_head (t d : ℚ) (tok : List Char) (toks : List (List Char))
    (ds : List ℚ) :
    (layOut t (tok :: toks) (d :: ds)).head? = some ⟨String.mk tok, t, t + d⟩ :=
  rfl

lemma layOut_getLast_stop : ∀ (toks : List (List Char)) (ds : List ℚ) (t : ℚ),
    toks.length = ds.length → toks ≠ [] →
    ∃ w, (layOut t toks ds).getLast? = some w ∧ w.stop = t + ds.sum
  | [tok], [d], t, _, _ => ⟨⟨String.mk tok, t, t + d⟩, rfl, by simp⟩
  | tok :: tok' :: toks, d :: d' :: ds, t, h, _ => by
    obtain ⟨w, hw, hstop⟩ :=
      layOut_getLast_stop (tok' :: toks) (d' :: ds) (t + d) (by simpa using h)
        (by simp)
    refine ⟨w, ?_, ?_⟩
    · simpa [layOut] using hw
    · rw [hstop]; simp [List.sum_cons]; ring
  | [], _, _, _, hne => absurd rfl hne
  | [_], [], _, h, _ => by simp at h
  | [_], _ :: _ :: _, _, h, _ => by simp at h
  | _ :: _ :: _, [], _, h, _ => by simp at h
  | _ :: _ :: _, [_], _, h, _ => by simp at h

lemma layOut_chain : ∀ (toks : List (List Char)) (ds : List ℚ) (t : ℚ),
    (∀ d ∈ ds, 0 ≤ d) →
    List.Chain' (fun a b => a.start ≤ b.start) (layOut t toks ds)
  | [], ds, _, _ => by cases ds <;> simp [layOut]
  | _ :: _, [], _, _ => by simp [layOut]
  | tok :: toks, d :: ds, t, h => by
    have hrest := layOut_chain toks ds (t + d) (fun x hx => h x (by simp [hx]))
    simp only [layOut]
    rw [List.chain'_cons']
    refine ⟨?_, hrest⟩
    intro b hb
    cases toks with
    | nil => simp [layOut] at hb
    | cons tok' toks' =>
      cases ds with
      | nil => simp [layOut] at hb
      | cons d' ds' =>
        rw [layOut_head] at hb
        cases hb
        simpa using h d (by simp)

lemma nominalDuration_pos (tok : List Char) : 0 < nominalDuration tok := by
  cases tok with
  | nil => norm_num [nominalDuration]
  | cons c rest =>
    by_cases h : (!isWordChar c && !isSpaceChar c) = true <;>
      simp [nominalDuration, h]

/-- Combined specification of one synthetic alignment step: the produced word
list has non-decreasing starts, begins exactly at the segment start, ends
exactly at the segment end, and carries exactly the tokens of the segment
text. -/
lemma simpleAlignSegment_spec (s : Segment)
    (hne : tokenize (strip s.text.data) ≠ []) (hord : s.start ≤ s.stop) :
    ∃ ws, (simpleAlignSegment s).words = some ws ∧
      List.Chain' (fun a b => a.start ≤ b.start) ws ∧
      (∃ w, ws.head? = some w ∧ w.start = s.start) ∧
      (∃ w, ws.getLast? = some w ∧ w.stop = s.stop) ∧
      ws.map Word.word = (tokenize (strip s.text.data)).map (fun tk => String.mk tk) := by
  have htotal : 0 < ((tokenize (strip s.text.data)).map nominalDuration).sum := by
    refine List.sum_pos _ ?_ (by simpa using hne)
    intro a ha
    obtain ⟨tk, _, rfl⟩ := List.mem_map.mp ha
    exact nominalDuration_pos tk
  have hxnn : 0 ≤ (s.stop - s.start) /
      ((tokenize (strip s.text.data)).map nominalDuration).sum :=
    div_nonneg (by linarith) htotal.le
  have hlen : (tokenize (strip s.text.data)).length =
      (((tokenize (strip s.text.data)).map nominalDuration).map
        (fun d => d * ((s.stop - s.start) /
          ((tokenize (strip s.text.data)).map nominalDuration).sum))).length := by
    simp
  have hsum : (((tokenize (strip s.text.data)).map nominalDuration).map
        (fun d => d * ((s.stop - s.start) /
          ((tokenize (strip s.text.data)).map nominalDuration).sum))).sum =
      s.stop - s.start := by
    rw [show (((tokenize (strip s.text.data)).map nominalDuration).map
        (fun d => d * ((s.stop - s.start) /
          ((tokenize (strip s.text.data)).map nominalDuration).sum))).sum =
        ((tokenize (strip s.text.data)).map nominalDuration).sum *
          ((s.stop - s.start) /
            ((tokenize (strip s.text.data)).map nominalDuration).sum) from by
      simpa using List.sum_map_mul_right
        ((tokenize (strip s.text.data)).map nominalDuration) id _]
    rw [mul_comm]
    exact div_mul_cancel₀ _ (ne_of_gt htotal)
  refine ⟨layOut s.start (tokenize (strip s.text.data))
      (((tokenize (strip s.text.data)).map nominalDuration).map
        (fun d => d * ((s.stop - s.start) /
          ((tokenize (strip s.text.data)).map nominalDuration).sum))),
      ?_, ?_, ?_, ?_, ?_⟩
  · simp only [simpleAlignSegment]
    rw [if_neg hne, if_pos htotal]
  · refine layOut_chain _ _ _ ?_
    intro d hd
    obtain ⟨a, ha, rfl⟩ := List.mem_map.mp hd
    obtain ⟨tk, _, rfl⟩ := List.mem_map.mp ha
    exact mul_nonneg (nominalDuration_pos tk).le hxnn
  · obtain ⟨tok, toks', htk⟩ := List.exists_cons_of_ne_nil hne
    rw [htk]
    exact ⟨_, rfl, rfl⟩
  · obtain ⟨w, hw, hstop⟩ := layOut_getLast_stop _ _ s.start hlen hne
    exact ⟨w, hw, by rw [hstop, hsum]; ring⟩
  · exact layOut_map_word _ _ _ hlen

/-- Invariant of the grouping loop: along strictly increasing frame times,
every emitted interval passes the duration test, has `duration = stop - start`
with endpoints among the frame times (or the incoming `pause_start`), emitted
intervals are mutually ordered, and a still-open `pause_start` lies at or
after every emitted interval. -/
lemma pauseScan_spec (minDur : ℚ) :
    ∀ (frames : List (ℚ × Bool)) (st : Option ℚ),
    List.Pairwise (· < ·) (frames.map Prod.fst) →
    (∀ s, st = some s → ∀ u ∈ frames.map Prod.fst, s < u) →
    (∀ p ∈ (pauseScan minDur frames st).1,
        p.duration = p.stop - p.start ∧ minDur ≤ p.duration ∧
        (p.start ∈ frames.map Prod.fst ∨ st = some p.start) ∧
        p.stop ∈ frames.map Prod.fst) ∧
    List.Pairwise (fun a b => a.stop ≤ b.start) (pauseScan minDur frames st).1 ∧
    (∀ s', (pauseScan minDur frames st).2 = some s' →
        (st = some s' ∨ s' ∈ frames.map Prod.fst) ∧
        ∀ p ∈ (pauseScan minDur frames st).1, p.stop ≤ s') := by
  intro frames
  induction frames with
  | nil =>
    intro st _ _
    refine ⟨by simp [pauseScan], by simp [pauseScan], ?_⟩
    intro s' hs'
    simp only [pauseScan] at hs'
    exact ⟨Or.inl hs', by simp [pauseScan]⟩
  | cons f rest ih =>
    obtain ⟨t, b⟩ := f
    intro st hpw hst
    rw [List.map_cons, List.pairwise_cons] at hpw
    obtain ⟨ht, hrest⟩ := hpw
    cases st with
    | none =>
      cases b with
      | true =>
        have hst' : ∀ s, (some t : Option ℚ) = some s →
            ∀ u ∈ rest.map Prod.fst, s < u := by
          intro s hs u hu
          cases hs
          exact ht u hu
        obtain ⟨c1, c2, c3⟩ := ih (some t) hrest hst'
        have heq : pauseScan minDur ((t, true) :: rest) none =
            pauseScan minDur rest (some t) := by
          simp [pauseScan]
        rw [heq]
        refine ⟨?_, c2, ?_⟩
        · intro p hp
          obtain ⟨d1, d2, d3, d4⟩ := c1 p hp
          refine ⟨d1, d2, ?_, by simp [d4]⟩
          rcases d3 with h3 | h3
          · exact Or.inl (by simp [h3])
          · simp only [Option.some.injEq] at h3
            exact Or.inl (by simp [← h3])
        · intro s' hs'
          obtain ⟨e1, e2⟩ := c3 s' hs'
          refine ⟨?_, e2⟩
          rcases e1 with h1 | h1
          · simp only [Option.some.injEq] at h1
            exact Or.inr (by simp [← h1])
          · exact Or.inr (by simp [h1])
      | false =>
        obtain ⟨c1, c2, c3⟩ := ih none hrest (by simp)
        have heq : pauseScan minDur ((t, false) :: rest) none =
            pauseScan minDur rest none := by
          simp [pauseScan]
        rw [heq]
        refine ⟨?_, c2, ?_⟩
        · intro p hp
          obtain ⟨d1, d2, d3, d4⟩ := c1 p hp
          refine ⟨d1, d2, ?_, by simp [d4]⟩
          rcases d3 with h3 | h3
          · exact Or.inl (by simp [h3])
          · simp at h3
        · intro s' hs'
          obtain ⟨e1, e2⟩ := c3 s' hs'
          refine ⟨?_, e2⟩
          rcases e1 with h1 | h1
          · simp at h1
          · exact Or.inr (by simp [h1])
    | some s =>
      have hsrest : ∀ s0, (some s : Option ℚ) = some s0 →
          ∀ u ∈ rest.map Prod.fst, s0 < u := by
        intro s0 hs0 u hu
        have h2 : s0 = s := by simpa using hs0.symm
        rw [h2]
        exact hst s rfl u (by simp [hu])
      cases b with
      | true =>
        obtain ⟨c1, c2, c3⟩ := ih (some s) hrest hsrest
        have heq : pauseScan minDur ((t, true) :: rest) (some s) =
            pauseScan minDur rest (some s) := by
          simp [pauseScan]
        rw [heq]
        refine ⟨?_, c2, ?_⟩
        · intro p hp
          obtain ⟨d1, d2, d3, d4⟩ := c1 p hp
          refine ⟨d1, d2, ?_, by simp [d4]⟩
          rcases d3 with h3 | h3
          · exact Or.inl (by simp [h3])
          · exact Or.inr h3
        · intro s' hs'
          obtain ⟨e1, e2⟩ := c3 s' hs'
          refine ⟨?_, e2⟩
          rcases e1 with h1 | h1
          · exact Or.inl h1
          · exact Or.inr (by simp [h1])
      | false =>
        obtain ⟨c1, c2, c3⟩ := ih none hrest (by simp)
        by_cases hd : minDur ≤ t - s
        · have heq : pauseScan minDur ((t, false) :: rest) (some s) =
              (⟨s, t, t - s⟩ :: (pauseScan minDur rest none).1,
                (pauseScan minDur rest none).2) := by
            simp [pauseScan, hd]
          rw [heq]
          refine ⟨?_, ?_, ?_⟩
          · intro p hp
            rcases List.mem_cons.mp hp with h3 | h3
            · subst h3
              exact ⟨rfl, hd, Or.inr rfl, by simp⟩
            · obtain ⟨d1, d2, d3, d4⟩ := c1 p h3
              refine ⟨d1, d2, ?_, by simp [d4]⟩
              rcases d3 with h4 | h4
              · exact Or.inl (by simp [h4])
              · simp at h4
          · rw [List.pairwise_cons]
            refine ⟨?_, c2⟩
            intro p hp
            obtain ⟨_, _, d3, _⟩ := c1 p hp
            rcases d3 with h4 | h4
            · exact (ht p.start h4).le
            · simp at h4
          · intro s' hs'
            obtain ⟨e1, e2⟩ := c3 s' hs'
            refine ⟨?_, ?_⟩
            · rcases e1 with h1 | h1
              · simp at h1
              · exact Or.inr (by simp [h1])
            · intro p hp
              rcases List.mem_cons.mp hp with h3 | h3
              · subst h3
                rcases e1 with h1 | h1
                · simp at h1
                · exact (ht s' h1).le
              · exact e2 p h3
        · have heq : pauseScan minDur ((t, false) :: rest) (some s) =
              ((pauseScan minDur rest none).1,
                (pauseScan minDur rest none).2) := by
            simp [pauseScan, hd]
          rw [heq]
          refine ⟨?_, c2, ?_⟩
          · intro p hp
            obtain ⟨d1, d2, d3, d4⟩ := c1 p hp
            refine ⟨d1, d2, ?_, by simp [d4]⟩
            rcases d3 with h4 | h4
            · exact Or.inl (by simp [h4])
            · simp at h4
          · intro s' hs'
            obtain ⟨e1, e2⟩ := c3 s' hs'
            refine ⟨?_, e2⟩
            rcases e1 with h1 | h1
            · simp at h1
            · exact Or.inr (by simp [h1])

/-- Along strictly increasing frame times, all intervals returned by the
frame-level algorithm (trailing interval included) pass the duration test and
are mutually ordered. -/
lemma detectPausesFrames_spec (minDur : ℚ) (frames : List (ℚ × Bool))
    (h : List.Pairwise (· < ·) (frames.map Prod.fst)) :
    (∀ p ∈ detectPausesFrames minDur frames,
        p.duration = p.stop - p.start ∧ minDur ≤ p.duration) ∧
    List.Pairwise (fun a b => a.stop ≤ b.start)
      (detectPausesFrames minDur frames) := by
  obtain ⟨c1, c2, c3⟩ := pauseScan_spec minDur frames none h (by simp)
  rcases hsc : (pauseScan minDur frames none).2 with _ | s <;>
    rcases hlast : (frames.map Prod.fst).getLast? with _ | tl
  · have hval : detectPausesFrames minDur frames = (pauseScan minDur frames none).1 := by
      simp [detectPausesFrames, hsc, hlast]
    rw [hval]
    refine ⟨fun p hp => ?_, c2⟩
    obtain ⟨d1, d2, _, _⟩ := c1 p hp
    exact ⟨d1, d2⟩
  · have hval : detectPausesFrames minDur frames = (pauseScan minDur frames none).1 := by
      simp [detectPausesFrames, hsc, hlast]
    rw [hval]
    refine ⟨fun p hp => ?_, c2⟩
    obtain ⟨d1, d2, _, _⟩ := c1 p hp
    exact ⟨d1, d2⟩
  · have hval : detectPausesFrames minDur frames = (pauseScan minDur frames none).1 := by
      simp [detectPausesFrames, hsc, hlast]
    rw [hval]
    refine ⟨fun p hp => ?_, c2⟩
    obtain ⟨d1, d2, _, _⟩ := c1 p hp
    exact ⟨d1, d2⟩
  · by_cases hd : minDur ≤ tl - s
    · have hval : detectPausesFrames minDur frames =
          (pauseScan minDur frames none).1 ++ [⟨s, tl, tl - s⟩] := by
        simp [detectPausesFrames, hsc, hlast, hd]
      rw [hval]
      obtain ⟨e1, e2⟩ := c3 s hsc
      constructor
      · intro p hp
        rcases List.mem_append.mp hp with h1 | h1
        · obtain ⟨d1, d2, _, _⟩ := c1 p h1
          exact ⟨d1, d2⟩
        · rcases List.mem_singleton.mp h1 with rfl
          exact ⟨rfl, hd⟩
      · rw [List.pairwise_append]
        refine ⟨c2, by simp, ?_⟩
        intro x hx y hy
        rcases List.mem_singleton.mp hy with rfl
        exact e2 x hx
    · have hval : detectPausesFrames minDur frames = (pauseScan minDur frames none).1 := by
        simp [detectPausesFrames, hsc, hlast, hd]
      rw [hval]
      refine ⟨fun p hp => ?_, c2⟩
      obtain ⟨d1, d2, _, _⟩ := c1 p hp
      exact ⟨d1, d2⟩

/-- The frame times `i * hop / sr` are strictly increasing when `hop` and
`sr` are positive. -/
lemma frameTimes_pairwise (n hop sr : ℕ) (hhop : 0 < hop) (hsr : 0 < sr) :
    List.Pairwise (· < ·) (frameTimes n hop sr) := by
  unfold frameTimes
  refine (List.pairwise_lt_range n).map _ ?_
  intro i j hij
  have hh : (0 : ℚ) < hop := by exact_mod_cast hhop
  have hs : (0 : ℚ) < sr := by exact_mod_cast hsr
  have hij' : (i : ℚ) < j := by exact_mod_cast hij
  exact div_lt_div_of_pos_right (mul_lt_mul_of_pos_right hij' hh) hs

/-- Specification of `_detect_pauses` on a successfully analysed waveform:
every returned interval has `duration = stop - start ≥ min_pause_duration`,
and the returned intervals are mutually ordered (consecutive intervals never
overlap). -/
lemma detect_pauses_spec (ps : PauseSettings) (a : AudioAnalysis)
    (hhop : 0 < ps.hop_length) (hsr : 0 < a.sr) :
    (∀ p ∈ detect_pauses ps (.ok a),
        p.duration = p.stop - p.start ∧ ps.min_pause_duration ≤ p.duration) ∧
    List.Pairwise (fun x y => x.stop ≤ y.start) (detect_pauses ps (.ok a)) := by
  have hmask : ((frameTimes a.rms.length ps.hop_length a.sr).zip
      (a.rms.map (fun e => decide (e < ps.energy_threshold)))).map Prod.fst =
      frameTimes a.rms.length ps.hop_length a.sr := by
    refine List.map_fst_zip _ _ ?_
    rw [frameTimes, List.length_map, List.length_range, List.length_map]
  have hpw : List.Pairwise (· < ·)
      (((frameTimes a.rms.length ps.hop_length a.sr).zip
        (a.rms.map (fun e => decide (e < ps.energy_threshold)))).map Prod.fst) := by
    rw [hmask]
    exact frameTimes_pairwise _ _ _ hhop hsr
  simpa [detect_pauses] using
    detectPausesFrames_spec ps.min_pause_duration _ hpw

lemma getJob_setJob (tbl : JobTable) (id : String) (j : Job) :
    getJob (setJob tbl id j) id = some j := by
  induction tbl with
  | nil => simp [setJob, getJob]
  | cons kv rest ih =>
    obtain ⟨k, v⟩ := kv
    by_cases h : k = id
    · simp [setJob, getJob, h]
    · simp [setJob, getJob, h, ih]

lemma length_setJob_mem (tbl : JobTable) (id : String) (j : Job)
    (h : getJob tbl id ≠ none) :
    (setJob tbl id j).length = tbl.length := by
  induction tbl with
  | nil => simp [getJob] at h
  | cons kv rest ih =>
    obtain ⟨k, v⟩ := kv
    by_cases hk : k = id
    · simp [setJob, hk]
    · simp only [getJob, if_neg hk] at h
      simp [setJob, hk, ih h]

lemma getJob_updateJob (tbl : JobTable) (id : String) (f : Job → Job) :
    getJob (updateJob tbl id f) id = (getJob tbl id).map f := by
  induction tbl with
  | nil => simp [updateJob, getJob]
  | cons kv rest ih =>
    obtain ⟨k, v⟩ := kv
    by_cases h : k = id
    · simp [updateJob, getJob, h]
    · simp [updateJob, getJob, h, ih]

/-! ## Helper lemmas about the orchestrator -/

/-- Every error `transcribe_file` returns carries the
`"Ошибка транскрипции: "` prefix added by its top-level handler. -/
lemma transcribe_file_error_wrapped (ps : PauseSettings) (env : PipelineEnv)
    (m : String) (h : (transcribe_file ps env).2 = .error m) :
    ∃ m0, m = wrapTranscriptionError m0 := by
  unfold transcribe_file at h
  by_cases hv : (env.isVideo && !env.convertOk) = true
  · rw [if_pos hv] at h
    simp only [Except.error.injEq] at h
    exact ⟨_, h.symm⟩
  · rw [if_neg hv] at h
    cases hwl : env.whisperLoad with
    | error m1 =>
      rw [hwl] at h
      simp only [Except.error.injEq] at h
      exact ⟨m1, h.symm⟩
    | ok u =>
      rw [hwl] at h
      cases hasr : env.asr with
      | error m2 =>
        rw [hasr] at h
        simp only [Except.error.injEq] at h
        exact ⟨m2, h.symm⟩
      | ok segs =>
        rw [hasr] at h
        simp at h

/-- The record left in the table by `process_transcription_task` under its
own task id: completed with progress 100 on success, failed with progress 0
and the error text on failure. -/
lemma process_transcription_task_getJob (tbl : JobTable) (task_id : String)
    (ps : PauseSettings) (env : PipelineEnv) :
    getJob (process_transcription_task tbl task_id ps env) task_id =
      some (match (transcribe_file ps env).2 with
        | .ok _ =>
          { status := .completed, progress := 100,
            message := "Транскрипция завершена!", logs := [], error := none }
        | .error m =>
          { status := .failed, progress := 0,
            message := "Ошибка при обработке", logs := [], error := some m }) := by
  unfold process_transcription_task
  cases hres : (transcribe_file ps env).2 with
  | ok r =>
    rw [getJob_updateJob, getJob_updateJob, getJob_setJob]
    rfl
  | error m =>
    rw [getJob_updateJob, getJob_updateJob, getJob_setJob]
    rfl

/-- The word strings produced by one synthetic alignment step are exactly the
tokens of the stripped segment text. -/
lemma simpleAlignSegment_words_map (s : Segment)
    (hne : tokenize (strip s.text.data) ≠ []) :
    ∃ ws, (simpleAlignSegment s).words = some ws ∧
      ws.map Word.word = (tokenize (strip s.text.data)).map (fun tk => String.mk tk) := by
  simp only [simpleAlignSegment]
  rw [if_neg hne]
  refine ⟨_, rfl, ?_⟩
  by_cases ht : 0 < ((tokenize (strip s.text.data)).map nominalDuration).sum
  · rw [if_pos ht]
    exact layOut_map_word _ _ _ (by simp)
  · rw [if_neg ht]
    exact layOut_map_word _ _ _ (by simp)

/-- A segment with at least one token receives a `words` list from the
synthetic alignment. -/
lemma simpleAlignSegment_words_isSome (s : Segment)
    (hne : tokenize (strip s.text.data) ≠ []) :
    ((simpleAlignSegment s).words).isSome = true := by
  simp only [simpleAlignSegment]
  rw [if_neg hne]
  rfl

/-- On every successful run the reported checkpoint trace is the full fixed
list. -/
lemma transcribe_file_trace_ok (ps : PauseSettings) (env : PipelineEnv)
    (h : (transcribe_file ps env).2.isOk = true) :
    (transcribe_file ps env).1 = progressCheckpoints := by
  unfold transcribe_file at h ⊢
  by_cases hv : (env.isVideo && !env.convertOk) = true
  · rw [if_pos hv] at h
    simp [Except.isOk, Except.toBool] at h
  · rw [if_neg hv] at h ⊢
    cases hwl : env.whisperLoad with
    | error m1 =>
      simp [Except.isOk, Except.toBool, hwl] at h
    | ok u =>
      cases hasr : env.asr with
      | error m2 =>
        simp [Except.isOk, Except.toBool, hwl, hasr] at h
      | ok segs =>
        rfl

/-- When ASR succeeds and the alignment capability raises, `transcribe_file`
completes with the synthetic fallback segments. -/
lemma transcribe_file_align_fallback (ps : PauseSettings) (env : PipelineEnv)
    (segs : List Segment) (m : String)
    (hconv : (env.isVideo && !env.convertOk) = false)
    (hwl : env.whisperLoad = .ok ())
    (hasr : env.asr = .ok segs)
    (hav : env.alignAvailable = true)
    (hal : env.alignResult = .error m) :
    transcribe_file ps env =
      (progressCheckpoints, .ok (simpleAlign segs, detect_pauses ps env.audioLoad)) := by
  unfold transcribe_file
  rw [if_neg (by simp [hconv]), hwl, hasr, hav, hal]
  rfl

/-! # Claim theorems -/

/-- C4: for every segment with a non-empty token list and `end ≥ start`,
synthetic word alignment produces word timings whose starts are monotonically
non-decreasing, whose first word starts exactly at `segment.start`, and whose
last word ends exactly at `segment.end` (hence within the 1e-6 tolerance). -/
theorem claim_C4_synthetic_alignment (s : Segment)
    (hne : tokenize (strip s.text.data) ≠ []) (hord : s.start ≤ s.stop) :
    ∃ ws, (simpleAlignSegment s).words = some ws ∧
      List.Chain' (fun a b => a.start ≤ b.start) ws ∧
      (∃ w, ws.head? = some w ∧ w.start = s.start) ∧
      (∃ w, ws.getLast? = some w ∧ w.stop = s.stop ∧
        |w.stop - s.stop| ≤ 1/1000000) := by
  obtain ⟨ws, h1, h2, h3, h4, _⟩ := simpleAlignSegment_spec s hne hord
  obtain ⟨w, hw, hstop⟩ := h4
  exact ⟨ws, h1, h2, h3, w, hw, hstop, by rw [hstop]; simp⟩

theorem claim_C4_witness :
    tokenize (strip segHi.text.data) ≠ [] ∧ segHi.start ≤ segHi.stop ∧
    (∃ ws, (simpleAlignSegment segHi).words = some ws ∧
      List.Chain' (fun a b => a.start ≤ b.start) ws ∧
      (∃ w, ws.head? = some w ∧ w.start = segHi.start) ∧
      (∃ w, ws.getLast? = some w ∧ w.stop = segHi.stop ∧
        |w.stop - segHi.stop| ≤ 1/1000000)) :=
  ⟨by decide, by decide, claim_C4_synthetic_alignment segHi (by decide) (by decide)⟩

/-- C5: for every segment with non-empty text, the tokens produced by the
synthetic alignment, concatenated in order, reconstruct the segment text with
its whitespace stripped (the inserted spacing being absent on both sides of
the comparison). -/
theorem claim_C5_token_reconstruction (s : Segment) (hne : s.text ≠ "") :
    (tokenize (strip s.text.data)).flatten =
      s.text.data.filter (fun c => !isSpaceChar c) ∧
    (tokenize (strip s.text.data) ≠ [] →
      ∃ ws, (simpleAlignSegment s).words = some ws ∧
        (ws.map (fun w => w.word.data)).flatten =
          s.text.data.filter (fun c => !isSpaceChar c)) := by
  have hbase : (tokenize (strip s.text.data)).flatten =
      s.text.data.filter (fun c => !isSpaceChar c) := by
    rw [tokenize_flatten, filter_strip]
  refine ⟨hbase, ?_⟩
  intro hne2
  obtain ⟨ws, hws, hmap⟩ := simpleAlignSegment_words_map s hne2
  refine ⟨ws, hws, ?_⟩
  have hdata : ws.map (fun w => w.word.data) = tokenize (strip s.text.data) := by
    have h1 : ws.map (fun w => w.word.data) = (ws.map Word.word).map String.data := by
      rw [List.map_map]
      rfl
    rw [h1, hmap, List.map_map]
    exact List.map_id _
  rw [hdata, hbase]

theorem claim_C5_witness :
    segHi.text ≠ "" ∧
    ((tokenize (strip segHi.text.data)).flatten =
      segHi.text.data.filter (fun c => !isSpaceChar c) ∧
    (tokenize (strip segHi.text.data) ≠ [] →
      ∃ ws, (simpleAlignSegment segHi).words = some ws ∧
        (ws.map (fun w => w.word.data)).flatten =
          segHi.text.data.filter (fun c => !isSpaceChar c))) :=
  ⟨by decide, claim_C5_token_reconstruction segHi (by decide)⟩

/-- C7: every interval returned by `detect_pauses` satisfies
`duration = stop - start ≥ min_pause_duration`, and consecutive returned
intervals never overlap (each interval starts at or after the previous one
ends); the trailing interval closed at the last frame time is in the returned
list and subject to the same properties. -/
theorem claim_C7_detect_pauses_intervals (ps : PauseSettings)
    (load : Except String AudioAnalysis) (hhop : 0 < ps.hop_length)
    (hsr : ∀ a, load = .ok a → 0 < a.sr) :
    (∀ p ∈ detect_pauses ps load,
        p.duration = p.stop - p.start ∧ ps.min_pause_duration ≤ p.duration) ∧
    List.Chain' (fun x y => x.stop ≤ y.start) (detect_pauses ps load) := by
  cases load with
  | error m => simp [detect_pauses]
  | ok a =>
    obtain ⟨h1, h2⟩ := detect_pauses_spec ps a hhop (hsr a rfl)
    exact ⟨h1, h2.chain'⟩

theorem claim_C7_witness :
    0 < psDefaults.hop_length ∧
    (∀ a, (Except.ok audioFix : Except String AudioAnalysis) = .ok a → 0 < a.sr) ∧
    ((∀ p ∈ detect_pauses psDefaults (.ok audioFix),
        p.duration = p.stop - p.start ∧
          psDefaults.min_pause_duration ≤ p.duration) ∧
      List.Chain' (fun x y => x.stop ≤ y.start)
        (detect_pauses psDefaults (.ok audioFix))) :=
  ⟨by decide, by intro a ha; cases ha; decide,
    claim_C7_detect_pauses_intervals psDefaults (.ok audioFix) (by decide)
      (by intro a ha; cases ha; decide)⟩

/-- C8: `_detect_pauses` never raises to its caller — it is a total function
of its input — and on any decoding or analysis error it returns the empty
pause list. -/
theorem claim_C8_detect_pauses_fails_closed (ps : PauseSettings) (m : String) :
    detect_pauses ps (.error m) = [] := rfl

/-- C9: `get_task_status` on a never-created id signals 404 (an error, not a
default record), and immediately after creation the stored record has status
Processing and progress 0. -/
theorem claim_C9_job_tracker (tbl : JobTable) (task_id : String)
    (h : getJob tbl task_id = none) :
    get_task_status tbl task_id = .error 404 ∧
    ∃ j, getJob (setJob tbl task_id initialTranscriptionJob) task_id = some j ∧
      j.status = .processing ∧ j.progress = 0 := by
  refine ⟨?_, initialTranscriptionJob, getJob_setJob tbl task_id _, rfl, rfl⟩
  unfold get_task_status
  rw [h]

theorem claim_C9_witness :
    getJob ([] : JobTable) "task_x" = none ∧
    (get_task_status ([] : JobTable) "task_x" = .error 404 ∧
      ∃ j, getJob (setJob ([] : JobTable) "task_x" initialTranscriptionJob)
          "task_x" = some j ∧
        j.status = .processing ∧ j.progress = 0) :=
  ⟨rfl, claim_C9_job_tracker [] "task_x" rfl⟩

/-- C10: the task id is the pure function
`"task_" ++ timestamp ++ "_" ++ sanitize_filename name` of the
second-resolution timestamp and the sanitized filename, so two submissions in
the same second whose filenames sanitize identically get the same id, and the
later task's record creation replaces the earlier record (same lookup key,
table does not grow). -/
theorem claim_C10_task_id_collision (ts f1 f2 : String) (tbl : JobTable)
    (h : sanitize_filename f1 = sanitize_filename f2) :
    makeTaskId ts f1 = makeTaskId ts f2 ∧
    getJob (setJob (setJob tbl (makeTaskId ts f1) initialTranscriptionJob)
        (makeTaskId ts f2) initialTranscriptionJob) (makeTaskId ts f1) =
      some initialTranscriptionJob ∧
    (setJob (setJob tbl (makeTaskId ts f1) initialTranscriptionJob)
        (makeTaskId ts f2) initialTranscriptionJob).length =
      (setJob tbl (makeTaskId ts f1) initialTranscriptionJob).length := by
  have hid : makeTaskId ts f1 = makeTaskId ts f2 := by
    unfold makeTaskId
    rw [h]
  refine ⟨hid, ?_, ?_⟩
  · rw [hid, getJob_setJob]
  · rw [← hid]
    refine length_setJob_mem _ _ _ ?_
    rw [getJob_setJob]
    simp

theorem claim_C10_witness :
    sanitize_filename "a b.mp3" = sanitize_filename "a_b.mp3" ∧
    (makeTaskId "20251012_120000" "a b.mp3" =
        makeTaskId "20251012_120000" "a_b.mp3" ∧
      getJob (setJob (setJob ([] : JobTable)
            (makeTaskId "20251012_120000" "a b.mp3") initialTranscriptionJob)
          (makeTaskId "20251012_120000" "a_b.mp3") initialTranscriptionJob)
          (makeTaskId "20251012_120000" "a b.mp3") =
        some initialTranscriptionJob ∧
      (setJob (setJob ([] : JobTable)
            (makeTaskId "20251012_120000" "a b.mp3") initialTranscriptionJob)
          (makeTaskId "20251012_120000" "a_b.mp3")
          initialTranscriptionJob).length =
        (setJob ([] : JobTable) (makeTaskId "20251012_120000" "a b.mp3")
          initialTranscriptionJob).length) :=
  ⟨by decide, claim_C10_task_id_collision "20251012_120000" "a b.mp3" "a_b.mp3"
    [] (by decide)⟩

/-- C2: on every successful transcription run the checkpoint sequence
reported by the service is exactly `[10, 35, 40, 50, 75, 90, 100]` (hence
drawn only from that set, in that order), and the progress updates the
background task itself writes into the caller-visible record after creating
it form the subsequence `[10, 100]` of the same fixed list. -/
theorem claim_C2_progress_checkpoints (ps : PauseSettings) (env : PipelineEnv)
    (h : (transcribe_file ps env).2.isOk = true) :
    (transcribe_file ps env).1 = progressCheckpoints ∧
    (transcribe_file ps env).1.Sublist progressCheckpoints ∧
    mainProgressUpdates ps env = [10, 100] ∧
    (mainProgressUpdates ps env).Sublist progressCheckpoints := by
  have h1 := transcribe_file_trace_ok ps env h
  have h2 : mainProgressUpdates ps env = [10, 100] := by
    unfold mainProgressUpdates
    cases hres : (transcribe_file ps env).2 with
    | ok r => rfl
    | error m =>
      rw [hres] at h
      simp [Except.isOk, Except.toBool] at h
  refine ⟨h1, by rw [h1], h2, by rw [h2]; decide⟩

theorem claim_C2_witness :
    (transcribe_file psDefaults envAllOk).2.isOk = true ∧
    ((transcribe_file psDefaults envAllOk).1 = progressCheckpoints ∧
      (transcribe_file psDefaults envAllOk).1.Sublist progressCheckpoints ∧
      mainProgressUpdates psDefaults envAllOk = [10, 100] ∧
      (mainProgressUpdates psDefaults envAllOk).Sublist progressCheckpoints) :=
  ⟨rfl, claim_C2_progress_checkpoints psDefaults envAllOk rfl⟩

/-- C1 counterexample: with ASR raising `"boom"` after the 50% checkpoint,
the stored job record is Failed with `error` equal to the wrapped message
`"Ошибка транскрипции: boom"`, not the verbatim `"boom"`, and with progress
reset to 0, not left at the last reached checkpoint 50. -/
theorem claim_C1_counterexample :
    (transcribe_file psDefaults envAsrFails).1.getLast? = some 50 ∧
    getJob (process_transcription_task [] "t1" psDefaults envAsrFails) "t1" =
      some { status := .failed, progress := 0,
             message := "Ошибка при обработке", logs := [],
             error := some "Ошибка транскрипции: boom" } ∧
    (some "Ошибка транскрипции: boom" : Option String) ≠ some "boom" ∧
    (0 : ℕ) ≠ 50 :=
  ⟨rfl, rfl, by decide, by decide⟩

/-- C1 (amended): when a pipeline stage raises, the job record becomes Failed
and stores the exception text as wrapped by the service's top-level handler
(prefix `"Ошибка транскрипции: "`), and progress is reset to 0 rather than
left at the last reached checkpoint. -/
theorem claim_C1_amended_failure_record (tbl : JobTable) (task_id : String)
    (ps : PauseSettings) (env : PipelineEnv) (m : String)
    (h : (transcribe_file ps env).2 = .error m) :
    getJob (process_transcription_task tbl task_id ps env) task_id =
      some { status := .failed, progress := 0,
             message := "Ошибка при обработке", logs := [],
             error := some m } ∧
    ∃ m0, m = wrapTranscriptionError m0 := by
  refine ⟨?_, transcribe_file_error_wrapped ps env m h⟩
  rw [process_transcription_task_getJob, h]

theorem claim_C1_amended_witness :
    (transcribe_file psDefaults envAsrFails).2 =
      .error "Ошибка транскрипции: boom" ∧
    (getJob (process_transcription_task [] "t1w" psDefaults envAsrFails)
        "t1w" =
      some { status := .failed, progress := 0,
             message := "Ошибка при обработке", logs := [],
             error := some "Ошибка транскрипции: boom" } ∧
      ∃ m0, "Ошибка транскрипции: boom" = wrapTranscriptionError m0) :=
  ⟨rfl, claim_C1_amended_failure_record [] "t1w" psDefaults envAsrFails
    "Ошибка транскрипции: boom" rfl⟩

/-- C6 counterexample: ASR succeeds with one empty-text segment and the
alignment capability raises; the job completes (the exception does not
propagate), but that segment is skipped by the synthetic fallback and ends up
with no word timings at all, contradicting "every segment carries word
timings". -/
theorem claim_C6_counterexample :
    getJob (process_transcription_task [] "t2" psDefaults
        envAlignFailsEmptySeg) "t2" =
      some { status := .completed, progress := 100,
             message := "Транскрипция завершена!", logs := [],
             error := none } ∧
    (transcribe_file psDefaults envAlignFailsEmptySeg).2 =
      .ok ([{ start := 0, stop := 1, text := "", words := none }], []) :=
  ⟨rfl, rfl⟩

/-- C6 (amended): when ASR succeeds and the alignment capability raises, the
exception does not propagate — the job completes (status Completed) with the
synthetic-fallback segments as its result — and every segment whose text has
at least one token carries synthetic word timings. -/
theorem claim_C6_amended_align_fallback (tbl : JobTable) (task_id : String)
    (ps : PauseSettings) (env : PipelineEnv) (segs : List Segment) (m : String)
    (hconv : (env.isVideo && !env.convertOk) = false)
    (hwl : env.whisperLoad = .ok ())
    (hasr : env.asr = .ok segs)
    (hav : env.alignAvailable = true)
    (hal : env.alignResult = .error m) :
    (transcribe_file ps env).2 =
      .ok (simpleAlign segs, detect_pauses ps env.audioLoad) ∧
    getJob (process_transcription_task tbl task_id ps env) task_id =
      some { status := .completed, progress := 100,
             message := "Транскрипция завершена!", logs := [],
             error := none } ∧
    ∀ s ∈ segs, tokenize (strip s.text.data) ≠ [] →
      ((simpleAlignSegment s).words).isSome = true := by
  have hres := transcribe_file_align_fallback ps env segs m hconv hwl hasr hav hal
  refine ⟨by rw [hres], ?_, ?_⟩
  · rw [process_transcription_task_getJob, hres]
  · intro s _ hne
    exact simpleAlignSegment_words_isSome s hne

theorem claim_C6_amended_witness :
    (envAlignFails.isVideo && !envAlignFails.convertOk) = false ∧
    envAlignFails.whisperLoad = .ok () ∧
    envAlignFails.asr = .ok [segHi] ∧
    envAlignFails.alignAvailable = true ∧
    envAlignFails.alignResult = .error "align broke" ∧
    ((transcribe_file psDefaults envAlignFails).2 =
        .ok (simpleAlign [segHi], detect_pauses psDefaults envAlignFails.audioLoad) ∧
      getJob (process_transcription_task [] "t3" psDefaults envAlignFails)
          "t3" =
        some { status := .completed, progress := 100,
               message := "Транскрипция завершена!", logs := [],
               error := none } ∧
      ∀ s ∈ [segHi], tokenize (strip s.text.data) ≠ [] →
        ((simpleAlignSegment s).words).isSome = true) :=
  ⟨rfl, rfl, rfl, rfl, rfl,
    claim_C6_amended_align_fallback [] "t3" psDefaults envAlignFails [segHi]
      "align broke" rfl rfl rfl rfl rfl⟩

/-- C3 counterexample: a pause starting at 5 and a word starting at 1 — the
detailed output lists the pause entry before the word entry, so the produced
sequence is not sorted by `start` ascending as the claim requires (the code
renders a pauses section followed by a words section; it never merges by
time). -/
theorem claim_C3_counterexample :
    detailedEntries [segWithWord] [pauseLate] =
      [.pause 5 6 1, .word "hi" 1 2] ∧
    ¬ List.Chain' (fun a b => entryStart a ≤ entryStart b)
        (detailedEntries [segWithWord] [pauseLate]) := by
  refine ⟨rfl, ?_⟩
  intro hch
  rw [show detailedEntries [segWithWord] [pauseLate] =
      [.pause 5 6 1, .word "hi" 1 2] from rfl, List.chain'_cons] at hch
  have h5 : (5 : ℚ) ≤ 1 := hch.1
  norm_num at h5

/-- C3 (amended): the detailed output contains every pause tagged as a Pause
entry (in detection order) and — when word timings exist — every word tagged
as a Word entry (in segment order), but as one pauses section followed by one
words section: every Pause entry precedes every Word entry, regardless of
start times. -/
theorem claim_C3_amended_sections (segments : List Segment)
    (pauses : List Pause)
    (hw : segments.any (fun s => !(s.words.getD []).isEmpty) = true) :
    (∀ p ∈ pauses,
      TimelineEntry.pause p.start p.stop p.duration ∈
        detailedEntries segments pauses) ∧
    (∀ s ∈ segments, ∀ w ∈ s.words.getD [],
      TimelineEntry.word (String.mk (strip w.word.data)) w.start w.stop ∈
        detailedEntries segments pauses) ∧
    ∃ l, detailedEntries segments pauses =
        pauses.map (fun p => TimelineEntry.pause p.start p.stop p.duration) ++ l ∧
      ∀ e ∈ l, e.isWord = true := by
  unfold detailedEntries
  rw [if_pos hw]
  refine ⟨?_, ?_, ?_⟩
  · intro p hp
    exact List.mem_append_left _ (List.mem_map_of_mem _ hp)
  · intro s hs w hwmem
    refine List.mem_append_right _ ?_
    rw [List.mem_flatMap]
    exact ⟨s, hs, List.mem_map_of_mem _ hwmem⟩
  · refine ⟨_, rfl, ?_⟩
    intro e he
    rw [List.mem_flatMap] at he
    obtain ⟨s, _, he2⟩ := he
    obtain ⟨w, _, rfl⟩ := List.mem_map.mp he2
    rfl

theorem claim_C3_amended_witness :
    ([segWithWord].any (fun s => !(s.words.getD []).isEmpty)) = true ∧
    ((∀ p ∈ [pauseLate],
      TimelineEntry.pause p.start p.stop p.duration ∈
        detailedEntries [segWithWord] [pauseLate]) ∧
    (∀ s ∈ [segWithWord], ∀ w ∈ s.words.getD [],
      TimelineEntry.word (String.mk (strip w.word.data)) w.start w.stop ∈
        detailedEntries [segWithWord] [pauseLate]) ∧
    ∃ l, detailedEntries [segWithWord] [pauseLate] =
        [pauseLate].map (fun p => TimelineEntry.pause p.start p.stop p.duration) ++ l ∧
      ∀ e ∈ l, e.isWord = true) :=
  ⟨rfl, claim_C3_amended_sections [segWithWord] [pauseLate] rfl⟩

end PSA
